import Mathlib

/-! todo_app/app.js : a verification development

The script keeps one array `tasks` of objects `{ text, completed }`, mirrors it
into `localStorage` under the key `'tasks'` with `JSON.stringify`, reads it back
with `JSON.parse` when the page is loaded, and redraws an unordered list from it.

Modelling decisions.

* A JavaScript string is the list of its UTF-16 code units (`JSString`).
* `String.prototype.trim`, `Array.prototype.splice`, `JSON.stringify` and
  `JSON.parse` are host functions; they are written out here after ECMA-262.
  `JSON.stringify` is given for arrays of task objects, the only values the
  script serialises.
* A thrown exception is the `error` case of `Except JSError`.
* The page is the record `State`: the array, the `'tasks'` entry of
  `localStorage`, the value of the input field, the rows of the list and the
  counter. A row keeps the values interpolated into its template; how the
  browser parses the label text as HTML is not modelled.
* An index is the integer its `data-index` string denotes. What `prompt`
  returns is an argument of `editTask`, `none` for a cancelled prompt.
* `localStorage` always accepts a write (no quota, no security error).
-/

namespace TodoApp

/-! ## Strings -/

/-- A JavaScript string: its UTF-16 code units, each below `2 ^ 16`. -/
abbrev JSString := List Nat

/-- The code units of an ASCII literal of the script. -/
def ascii (s : String) : JSString := s.toList.map Char.toNat

/-- ECMA-262 `WhiteSpace` and `LineTerminator` code points, which `trim` strips. -/
def isWhiteSpace (c : Nat) : Bool :=
  c = 0x09 || c = 0x0A || c = 0x0B || c = 0x0C || c = 0x0D || c = 0x20 ||
  c = 0xA0 || c = 0x1680 || (0x2000 ≤ c && c ≤ 0x200A) || c = 0x2028 ||
  c = 0x2029 || c = 0x202F || c = 0x205F || c = 0x3000 || c = 0xFEFF

/-- `String.prototype.trim`: white space removed from both ends. -/
def trim (s : JSString) : JSString :=
  ((s.dropWhile isWhiteSpace).reverse.dropWhile isWhiteSpace).reverse

/-- The exceptions the script can run into. -/
inductive JSError where
  | SyntaxError
  | TypeError
  deriving DecidableEq, Repr

/-! ## JSON values -/

/-- The values `JSON.parse` can return. A number is kept as the exact decimal
its text denotes, `mantissa * 10 ^ exp10` with a sign; an object is the list of
its own properties in creation order (integer-like keys, which JavaScript
enumerates first, stay where they were created). -/
inductive JSON where
  | null
  | bool (b : Bool)
  | num (negative : Bool) (mantissa : Nat) (exp10 : Int)
  | str (s : JSString)
  | arr (items : List JSON)
  | obj (props : List (JSString × JSON))
  deriving Repr

/-- Whether the decimal `mantissa * 10 ^ exp10` is rounded to zero as a double:
it is zero, or at most `2 ^ (-1075)`, half the least positive double. -/
def roundsToZero (mantissa : Nat) (exp10 : Int) : Bool :=
  mantissa = 0 || (exp10 < 0 && mantissa * 2 ^ 1075 ≤ 10 ^ (-exp10).toNat)

/-- `ToBoolean`, which decides the `||` of the load. -/
def truthy : JSON → Bool
  | .null => false
  | .bool b => b
  | .num _ m e => !roundsToZero m e
  | .str s => !s.isEmpty
  | .arr _ => true
  | .obj _ => true

/-- `CreateDataProperty` on the property list: an existing key keeps its place
and gets the new value, a new key goes last. -/
def setProp : List (JSString × JSON) → JSString → JSON → List (JSString × JSON)
  | [], k, v => [(k, v)]
  | (k0, v0) :: ps, k, v => if k0 = k then (k, v) :: ps else (k0, v0) :: setProp ps k v

/-! ## JSON.stringify -/

/-- A leading surrogate code unit. -/
def isLeadingSurrogate (c : Nat) : Bool := 0xD800 ≤ c && c ≤ 0xDBFF

/-- A trailing surrogate code unit. -/
def isTrailingSurrogate (c : Nat) : Bool := 0xDC00 ≤ c && c ≤ 0xDFFF

/-- One lowercase hexadecimal digit. -/
def hexDigit (d : Nat) : Nat := if d < 10 then 0x30 + d else 0x61 + (d - 10)

/-- `UnicodeEscape`: backslash, `u` and four lowercase hexadecimal digits. -/
def unicodeEscape (c : Nat) : List Nat :=
  [0x5C, 0x75, hexDigit (c / 4096 % 16), hexDigit (c / 256 % 16),
    hexDigit (c / 16 % 16), hexDigit (c % 16)]

/-- The two-character escapes of `QuoteJSONString`, else `none`. -/
def shortEscape (c : Nat) : Option (List Nat) :=
  if c = 0x08 then some [0x5C, 0x62]
  else if c = 0x09 then some [0x5C, 0x74]
  else if c = 0x0A then some [0x5C, 0x6E]
  else if c = 0x0C then some [0x5C, 0x66]
  else if c = 0x0D then some [0x5C, 0x72]
  else if c = 0x22 then some [0x5C, 0x22]
  else if c = 0x5C then some [0x5C, 0x5C]
  else none

/-- What `QuoteJSONString` writes for one code point that is a single code
unit: an escape for the characters that need one, and for a control character
and a lone surrogate, else the code unit. -/
def quoteUnit (c : Nat) : List Nat :=
  match shortEscape c with
  | some e => e
  | none =>
    if c < 0x20 || isLeadingSurrogate c || isTrailingSurrogate c then unicodeEscape c
    else [c]

/-- The body of `QuoteJSONString`, code point by code point: a leading
surrogate followed by a trailing one is a pair and is copied. -/
def quoteChars : List Nat → List Nat
  | [] => []
  | [c] => quoteUnit c
  | c :: d :: rest =>
    if isLeadingSurrogate c && isTrailingSurrogate d then c :: d :: quoteChars rest
    else quoteUnit c ++ quoteChars (d :: rest)

/-- `QuoteJSONString`. -/
def quoteJSONString (s : JSString) : List Nat := 0x22 :: quoteChars s ++ [0x22]

/-! ## JSON.parse -/

/-- The white space of the JSON grammar: tab, line feed, carriage return, space. -/
def isJSONWhiteSpace (c : Nat) : Bool := c = 0x09 || c = 0x0A || c = 0x0D || c = 0x20

/-- Skip JSON white space. -/
def skipWS (s : List Nat) : List Nat := s.dropWhile isJSONWhiteSpace

/-- The value of a hexadecimal digit of either case. -/
def hexVal (c : Nat) : Option Nat :=
  if 0x30 ≤ c ∧ c ≤ 0x39 then some (c - 0x30)
  else if 0x41 ≤ c ∧ c ≤ 0x46 then some (c - 0x41 + 10)
  else if 0x61 ≤ c ∧ c ≤ 0x66 then some (c - 0x61 + 10)
  else none

/-- The character a single-character escape stands for. -/
def unescape (e : Nat) : Option Nat :=
  if e = 0x22 then some 0x22
  else if e = 0x2F then some 0x2F
  else if e = 0x5C then some 0x5C
  else if e = 0x62 then some 0x08
  else if e = 0x66 then some 0x0C
  else if e = 0x6E then some 0x0A
  else if e = 0x72 then some 0x0D
  else if e = 0x74 then some 0x09
  else none

/-- Put a character in front of a parsed string. -/
def consChar (c : Nat) : Option (JSString × List Nat) → Option (JSString × List Nat)
  | some (s, rest) => some (c :: s, rest)
  | none => none

/-- The characters of a JSON string after its opening quote, up to and with the
closing quote: the string denoted and the input left. -/
def parseStringChars : List Nat → Option (JSString × List Nat)
  | [] => none
  | c :: rest =>
    if c = 0x22 then some ([], rest)
    else if c = 0x5C then
      match rest with
      | [] => none
      | e :: rest1 =>
        if e = 0x75 then
          match rest1 with
          | h1 :: h2 :: h3 :: h4 :: rest2 =>
            match hexVal h1, hexVal h2, hexVal h3, hexVal h4 with
            | some a, some b, some c, some d =>
              consChar (((a * 16 + b) * 16 + c) * 16 + d) (parseStringChars rest2)
            | _, _, _, _ => none
          | _ => none
        else
          match unescape e with
          | some u => consChar u (parseStringChars rest1)
          | none => none
    else if c < 0x20 then none
    else consChar c (parseStringChars rest)
termination_by structural s => s

/-- A decimal digit. -/
def isDigit (c : Nat) : Bool := 0x30 ≤ c && c ≤ 0x39

/-- The number a list of decimal digits denotes, after the digits read so far. -/
def digitsValue (acc : Nat) : List Nat → Nat
  | [] => acc
  | d :: ds => digitsValue (acc * 10 + (d - 0x30)) ds

/-- The exponent part of a JSON number, if there is one: its value and the rest. -/
def parseExponent (s : List Nat) : Option (Int × List Nat) :=
  match s with
  | [] => some (0, [])
  | c :: rest =>
    if c = 0x65 ∨ c = 0x45 then
      match rest with
      | [] => none
      | sign :: rest1 =>
        let body := if sign = 0x2B ∨ sign = 0x2D then rest1 else rest
        let ds := body.takeWhile isDigit
        if ds = [] then none
        else
          let e : Int := digitsValue 0 ds
          some (if sign = 0x2D then -e else e, body.dropWhile isDigit)
    else some (0, s)

/-- The fraction part of a JSON number, if there is one: its digits and the rest. -/
def parseFraction (s : List Nat) : Option (List Nat × List Nat) :=
  match s with
  | [] => some ([], [])
  | c :: rest =>
    if c = 0x2E then
      let ds := rest.takeWhile isDigit
      if ds = [] then none else some (ds, rest.dropWhile isDigit)
    else some ([], s)

/-- The digits of a JSON number after its sign: a lone `0`, or a non-zero digit
and further digits; then the fraction and the exponent. -/
def parseUnsigned (negative : Bool) (s : List Nat) : Option (JSON × List Nat) :=
  match s with
  | [] => none
  | c :: rest =>
    if isDigit c then
      let intDigits := if c = 0x30 then [c] else c :: rest.takeWhile isDigit
      let rest1 := if c = 0x30 then rest else rest.dropWhile isDigit
      match parseFraction rest1 with
      | none => none
      | some (frac, rest2) =>
        match parseExponent rest2 with
        | none => none
        | some (e, rest3) =>
          some (.num negative (digitsValue 0 (intDigits ++ frac)) (e - frac.length), rest3)
    else none

/-- A JSON number. -/
def parseNumber (s : List Nat) : Option (JSON × List Nat) :=
  match s with
  | [] => none
  | c :: rest => if c = 0x2D then parseUnsigned true rest else parseUnsigned false s

/-- The code units of `true`. -/
def litTrue : List Nat := [0x74, 0x72, 0x75, 0x65]

/-- The code units of `false`. -/
def litFalse : List Nat := [0x66, 0x61, 0x6C, 0x73, 0x65]

/-- The code units of `null`. -/
def litNull : List Nat := [0x6E, 0x75, 0x6C, 0x6C]

/-- A literal, a number, or nothing. -/
def parseScalar (s : List Nat) : Option (JSON × List Nat) :=
  if litTrue.isPrefixOf s then some (.bool true, s.drop 4)
  else if litFalse.isPrefixOf s then some (.bool false, s.drop 5)
  else if litNull.isPrefixOf s then some (.null, s.drop 4)
  else parseNumber s

mutual

/-- A JSON value at the head of the input (white space already skipped), with
the input left. The first argument bounds the depth of the recursion. -/
def parseValue : Nat → List Nat → Option (JSON × List Nat)
  | 0, _ => none
  | fuel + 1, s =>
    match s with
    | [] => none
    | c :: rest =>
      if c = 0x5B then
        match skipWS rest with
        | [] => none
        | d :: rest1 =>
          if d = 0x5D then some (.arr [], rest1) else parseElements fuel (d :: rest1) []
      else if c = 0x7B then
        match skipWS rest with
        | [] => none
        | d :: rest1 =>
          if d = 0x7D then some (.obj [], rest1) else parseMembers fuel (d :: rest1) []
      else if c = 0x22 then
        match parseStringChars rest with
        | some (t, rest1) => some (.str t, rest1)
        | none => none
      else parseScalar s

/-- The elements of an array after the ones in `acc`, up to and with `]`. -/
def parseElements : Nat → List Nat → List JSON → Option (JSON × List Nat)
  | 0, _, _ => none
  | fuel + 1, s, acc =>
    match parseValue fuel s with
    | none => none
    | some (v, rest) =>
      match skipWS rest with
      | [] => none
      | d :: rest1 =>
        if d = 0x2C then parseElements fuel (skipWS rest1) (acc ++ [v])
        else if d = 0x5D then some (.arr (acc ++ [v]), rest1)
        else none

/-- The members of an object after the ones in `acc`, up to and with `}`. -/
def parseMembers : Nat → List Nat → List (JSString × JSON) → Option (JSON × List Nat)
  | 0, _, _ => none
  | fuel + 1, s, acc =>
    match s with
    | [] => none
    | q :: rest =>
      if q = 0x22 then
        match parseStringChars rest with
        | none => none
        | some (key, rest1) =>
          match skipWS rest1 with
          | [] => none
          | colon :: rest2 =>
            if colon = 0x3A then
              match parseValue fuel (skipWS rest2) with
              | none => none
              | some (v, rest3) =>
                match skipWS rest3 with
                | [] => none
                | d :: rest4 =>
                  if d = 0x2C then parseMembers fuel (skipWS rest4) (setProp acc key v)
                  else if d = 0x7D then some (.obj (setProp acc key v), rest4)
                  else none
            else none
      else none

end

/-- `JSON.parse(text)` without a reviver: one value between optional white
space, else a `SyntaxError`. -/
def JSON_parse (text : JSString) : Except JSError JSON :=
  match parseValue (2 * text.length + 2) (skipWS text) with
  | some (v, rest) => if skipWS rest = [] then .ok v else .error .SyntaxError
  | none => .error .SyntaxError

/-- The text is a JSON text: at some depth of recursion it parses as one value
between optional white space. -/
def ValidJSON (text : JSString) : Prop :=
  ∃ fuel v rest, parseValue fuel (skipWS text) = some (v, rest) ∧ skipWS rest = []

/-! ## The data model -/

/-- One entry of the `tasks` array: `{ text, completed }`. -/
structure Task where
  text : JSString
  completed : Bool
  deriving DecidableEq, Repr

/-- One `li` of the list, as the values its template interpolates: `index` is
the `data-index` of the checkbox and of both buttons, `completed` sets the
`checked` attribute and the `completed` class, `text` is the label. -/
structure Row where
  index : Nat
  completed : Bool
  text : JSString
  deriving DecidableEq, Repr

/-- The page: the array `tasks`, the `'tasks'` entry of `localStorage` (`none`
when there is none), `taskInput.value`, the children of the list and the text
of the counter. -/
structure State where
  tasks : List Task
  storage : Option JSString
  inputValue : JSString
  rows : List Row
  counter : Nat
  deriving DecidableEq, Repr

/-- The property name `text`. -/
def keyText : JSString := [0x74, 0x65, 0x78, 0x74]

/-- The property name `completed`. -/
def keyCompleted : JSString := [0x63, 0x6F, 0x6D, 0x70, 0x6C, 0x65, 0x74, 0x65, 0x64]

/-- A task as a JavaScript value. -/
def Task.toJSON (t : Task) : JSON :=
  .obj [(keyText, .str t.text), (keyCompleted, .bool t.completed)]

/-- A task list as a JavaScript value. -/
def tasksToJSON (ts : List Task) : JSON := .arr (ts.map Task.toJSON)

/-- `SerializeJSONObject` on a task, without indentation. -/
def stringifyTask (t : Task) : List Nat :=
  0x7B :: (quoteJSONString keyText ++ 0x3A :: (quoteJSONString t.text ++
    0x2C :: (quoteJSONString keyCompleted ++ 0x3A ::
      ((if t.completed then litTrue else litFalse) ++ [0x7D]))))

/-- The elements of `SerializeJSONArray`, separated by commas. -/
def stringifyItems : List Task → List Nat
  | [] => []
  | [t] => stringifyTask t
  | t :: u :: ts => stringifyTask t ++ 0x2C :: stringifyItems (u :: ts)

/-- `JSON.stringify(tasks)` for an array of tasks. -/
def JSON_stringify (ts : List Task) : JSString :=
  0x5B :: (stringifyItems ts ++ [0x5D])

/-! ## The script -/

/-- `ToString` of what `localStorage.getItem` returns: `null` reads `"null"`. -/
def toStringOrNull : Option JSString → JSString
  | none => litNull
  | some s => s

/-- Line 9: `JSON.parse(localStorage.getItem('tasks')) || []`. -/
def loadTasks (storage : Option JSString) : Except JSError JSON :=
  match JSON_parse (toStringOrNull storage) with
  | .ok v => .ok (if truthy v then v else .arr [])
  | .error e => .error e

/-- `tasks[index]`: `none` stands for `undefined`. -/
def at? (ts : List Task) (index : Int) : Option Task :=
  if 0 ≤ index then ts[index.toNat]? else none

/-- `Array.prototype.splice(start, deleteCount)` with no items to insert. -/
def splice (ts : List Task) (start deleteCount : Int) : List Task :=
  let len : Int := ts.length
  let actualStart : Int := if start < 0 then max (len + start) 0 else min start len
  let actualDeleteCount : Int := min (max deleteCount 0) (len - actualStart)
  ts.take actualStart.toNat ++ ts.drop (actualStart + actualDeleteCount).toNat

/-- `updateTaskCounter`. -/
def updateTaskCounter (st : State) : State :=
  { st with counter := (st.tasks.filter (fun task => !task.completed)).length }

/-- `saveTasks`. -/
def saveTasks (st : State) : State :=
  { st with storage := some (JSON_stringify st.tasks) }

/-- The rows a `forEach((task, index) => ...)` appends to the emptied list. -/
def renderRows (ts : List Task) : List Row :=
  ts.enum.map (fun p => { index := p.1, completed := p.2.completed, text := p.2.text })

/-- `renderTasks`. -/
def renderTasks (st : State) : State :=
  updateTaskCounter { st with rows := renderRows st.tasks }

/-- `addTask`. -/
def addTask (st : State) : State :=
  let taskText := trim st.inputValue
  if taskText ≠ [] then
    renderTasks (saveTasks
      { st with tasks := st.tasks ++ [{ text := taskText, completed := false }],
                inputValue := [] })
  else st

/-- `deleteTask(index)`. -/
def deleteTask (st : State) (index : Int) : State :=
  renderTasks (saveTasks { st with tasks := splice st.tasks index 1 })

/-- `editTask(index)`; `promptResult` is what `prompt` returns, `none` for
`null`. Reading `task.text` of `undefined` throws before the prompt. -/
def editTask (st : State) (index : Int) (promptResult : Option JSString) :
    Except JSError State :=
  match at? st.tasks index with
  | none => .error .TypeError
  | some task =>
    match promptResult with
    | none => .ok st
    | some newText =>
      if trim newText ≠ [] then
        .ok (renderTasks (saveTasks
          { st with tasks := st.tasks.set index.toNat { task with text := trim newText } }))
      else .ok st

/-- `toggleComplete(index)`. Reading `completed` of `undefined` throws. -/
def toggleComplete (st : State) (index : Int) : Except JSError State :=
  match at? st.tasks index with
  | none => .error .TypeError
  | some task =>
    .ok (renderTasks (saveTasks
      { st with tasks := st.tasks.set index.toNat { task with completed := !task.completed } }))

/-- The `filteredTasks` of `filterTasks(filter)`. -/
def filteredTasks (ts : List Task) (filter : JSString) : List Task :=
  if filter = ascii "active" then ts.filter (fun task => !task.completed)
  else if filter = ascii "completed" then ts.filter (fun task => task.completed)
  else ts

/-- `filterTasks(filter)`. -/
def filterTasks (st : State) (filter : JSString) : State :=
  { st with rows := renderRows (filteredTasks st.tasks filter) }

/-- The control of a row that a click lands on. -/
inductive Control where
  | deleteButton
  | editButton
  | checkbox
  deriving DecidableEq, Repr

/-- The click listener of the list, for a click on `control` of `row`: the
index handed on is the `data-index` of that row. -/
def onListClick (st : State) (control : Control) (row : Row)
    (promptResult : Option JSString) : Except JSError State :=
  match control with
  | .deleteButton => .ok (deleteTask st row.index)
  | .editButton => editTask st row.index promptResult
  | .checkbox => toggleComplete st row.index

/-- The page after a load that found no `'tasks'` entry. -/
def emptyState : State :=
  renderTasks { tasks := [], storage := none, inputValue := [], rows := [], counter := 0 }

/-- The task a row shows. -/
def Row.task (r : Row) : Task := { text := r.text, completed := r.completed }

/-- A text that is not empty and not made of white space only. -/
def goodText (s : JSString) : Prop := s ≠ [] ∧ ¬ ∀ c ∈ s, isWhiteSpace c = true

/-- Every task of the list has a text that is not empty and not white space
only. -/
def AllGood (ts : List Task) : Prop := ∀ t ∈ ts, goodText t.text

/-- The states the four operations lead to from the empty page; the text in the
input field is whatever the user typed before `addTask` runs. -/
inductive Reachable : State → Prop where
  | start : Reachable emptyState
  | add (st : State) (s : JSString) :
      Reachable st → Reachable (addTask { st with inputValue := s })
  | delete (st : State) (index : Int) : Reachable st → Reachable (deleteTask st index)
  | edit (st st1 : State) (index : Int) (r : Option JSString) :
      Reachable st → editTask st index r = .ok st1 → Reachable st1
  | toggle (st st1 : State) (index : Int) :
      Reachable st → toggleComplete st index = .ok st1 → Reachable st1


/-! ## JSON.parse after JSON.stringify -/

theorem parseStringChars_cons (c : Nat) (rest : List Nat) :
    parseStringChars (c :: rest) =
      if c = 0x22 then some ([], rest)
      else if c = 0x5C then
        match rest with
        | [] => none
        | e :: rest1 =>
          if e = 0x75 then
            match rest1 with
            | h1 :: h2 :: h3 :: h4 :: rest2 =>
              match hexVal h1, hexVal h2, hexVal h3, hexVal h4 with
              | some a, some b, some c, some d =>
                consChar (((a * 16 + b) * 16 + c) * 16 + d) (parseStringChars rest2)
              | _, _, _, _ => none
            | _ => none
          else
            match unescape e with
            | some u => consChar u (parseStringChars rest1)
            | none => none
      else if c < 0x20 then none
      else consChar c (parseStringChars rest) := by
  rw [parseStringChars.eq_def]

theorem hexVal_hexDigit (d : Nat) (h : d < 16) : hexVal (hexDigit d) = some d := by
  unfold hexDigit hexVal
  split
  · rw [if_pos (by omega)]; congr 1; omega
  · rw [if_neg (by omega), if_neg (by omega), if_pos (by omega)]; congr 1; omega

theorem parseStringChars_unicodeEscape (c : Nat) (h : c < 65536) (rest : List Nat) :
    parseStringChars (unicodeEscape c ++ rest) = consChar c (parseStringChars rest) := by
  have e : ((c / 4096 % 16 * 16 + c / 256 % 16) * 16 + c / 16 % 16) * 16 + c % 16 = c := by
    omega
  simp only [unicodeEscape, List.cons_append, List.nil_append]
  rw [parseStringChars_cons]
  simp only [hexVal_hexDigit _ (Nat.mod_lt _ (show 0 < 16 by norm_num)), e]
  simp

theorem parseStringChars_quoteUnit (c : Nat) (rest : List Nat) :
    parseStringChars (quoteUnit c ++ rest) = consChar c (parseStringChars rest) := by
  unfold quoteUnit
  split
  · rename_i e he
    unfold shortEscape at he
    split_ifs at he <;> simp at he <;> subst_vars <;> simp [parseStringChars_cons, unescape]
  · rename_i he
    have h1 : c ≠ 0x22 := by rintro rfl; simp [shortEscape] at he
    have h2 : c ≠ 0x5C := by rintro rfl; simp [shortEscape] at he
    split
    · rename_i hc
      apply parseStringChars_unicodeEscape
      simp [isLeadingSurrogate, isTrailingSurrogate] at hc
      omega
    · rename_i hc
      simp [isLeadingSurrogate, isTrailingSurrogate] at hc
      simp only [List.cons_append, List.nil_append]
      rw [parseStringChars_cons, if_neg h1, if_neg h2, if_neg (by omega)]

theorem parseStringChars_quoteChars (s : JSString) (rest : List Nat) :
    parseStringChars (quoteChars s ++ 0x22 :: rest) = some (s, rest) := by
  induction s using quoteChars.induct with
  | case1 => simp [quoteChars, parseStringChars_cons]
  | case2 c =>
    simp only [quoteChars]
    rw [parseStringChars_quoteUnit]
    simp [parseStringChars_cons, consChar]
  | case3 c d rest1 h ih =>
    rw [quoteChars, if_pos h]
    simp [isLeadingSurrogate, isTrailingSurrogate] at h
    simp only [List.cons_append]
    rw [parseStringChars_cons, if_neg (by omega), if_neg (by omega), if_neg (by omega),
      parseStringChars_cons, if_neg (by omega), if_neg (by omega), if_neg (by omega), ih]
    rfl
  | case4 c d rest1 h ih =>
    rw [quoteChars, if_neg h, List.append_assoc, parseStringChars_quoteUnit, ih]
    rfl

theorem parseValue_succ_cons (fuel c : Nat) (rest : List Nat) :
    parseValue (fuel + 1) (c :: rest) =
      if c = 0x5B then
        match skipWS rest with
        | [] => none
        | d :: rest1 =>
          if d = 0x5D then some (.arr [], rest1) else parseElements fuel (d :: rest1) []
      else if c = 0x7B then
        match skipWS rest with
        | [] => none
        | d :: rest1 =>
          if d = 0x7D then some (.obj [], rest1) else parseMembers fuel (d :: rest1) []
      else if c = 0x22 then
        match parseStringChars rest with
        | some (t, rest1) => some (.str t, rest1)
        | none => none
      else parseScalar (c :: rest) := by
  rw [parseValue]

theorem parseElements_succ (fuel : Nat) (s : List Nat) (acc : List JSON) :
    parseElements (fuel + 1) s acc =
      match parseValue fuel s with
      | none => none
      | some (v, rest) =>
        match skipWS rest with
        | [] => none
        | d :: rest1 =>
          if d = 0x2C then parseElements fuel (skipWS rest1) (acc ++ [v])
          else if d = 0x5D then some (.arr (acc ++ [v]), rest1)
          else none := by
  rw [parseElements]

theorem parseMembers_succ_cons (fuel q : Nat) (rest : List Nat)
    (acc : List (JSString × JSON)) :
    parseMembers (fuel + 1) (q :: rest) acc =
      if q = 0x22 then
        match parseStringChars rest with
        | none => none
        | some (key, rest1) =>
          match skipWS rest1 with
          | [] => none
          | colon :: rest2 =>
            if colon = 0x3A then
              match parseValue fuel (skipWS rest2) with
              | none => none
              | some (v, rest3) =>
                match skipWS rest3 with
                | [] => none
                | d :: rest4 =>
                  if d = 0x2C then parseMembers fuel (skipWS rest4) (setProp acc key v)
                  else if d = 0x7D then some (.obj (setProp acc key v), rest4)
                  else none
            else none
      else none := by
  rw [parseMembers]

theorem skipWS_cons_of_not (c : Nat) (rest : List Nat) (h : isJSONWhiteSpace c = false) :
    skipWS (c :: rest) = c :: rest := by
  simp [skipWS, List.dropWhile, h]

theorem parseValue_quoted (fuel : Nat) (s : JSString) (rest : List Nat) :
    parseValue (fuel + 1) (quoteJSONString s ++ rest) = some (.str s, rest) := by
  simp only [quoteJSONString, List.cons_append, List.append_assoc, List.nil_append]
  rw [parseValue_succ_cons, if_neg (by decide), if_neg (by decide), if_pos rfl,
    parseStringChars_quoteChars]

theorem parseValue_bool (fuel : Nat) (b : Bool) (rest : List Nat) :
    parseValue (fuel + 1) ((if b then litTrue else litFalse) ++ rest) = some (.bool b, rest) := by
  cases b <;> simp [litTrue, litFalse, parseValue_succ_cons, parseScalar]

theorem quoteJSONString_ne_nil_head (s : JSString) (rest : List Nat) :
    skipWS (quoteJSONString s ++ rest) = quoteJSONString s ++ rest := by
  simp only [quoteJSONString, List.cons_append]
  exact skipWS_cons_of_not _ _ (by decide)

theorem parseMembers_task (fuel : Nat) (t : Task) (rest : List Nat) :
    parseMembers (fuel + 3)
      (quoteJSONString keyText ++ 0x3A :: (quoteJSONString t.text ++
        0x2C :: (quoteJSONString keyCompleted ++ 0x3A ::
          ((if t.completed then litTrue else litFalse) ++ 0x7D :: rest)))) [] =
      some (t.toJSON, rest) := by
  have hk : ∀ (k : JSString) (r : List Nat),
      quoteJSONString k ++ r = 0x22 :: (quoteChars k ++ 0x22 :: r) := by
    intro k r; simp [quoteJSONString]
  have hb : ∀ r : List Nat,
      skipWS ((if t.completed then litTrue else litFalse) ++ r) =
        (if t.completed then litTrue else litFalse) ++ r := by
    intro r; cases t.completed <;> exact skipWS_cons_of_not _ _ (by decide)
  rw [hk keyText, parseMembers_succ_cons, parseStringChars_quoteChars]
  simp only [↓reduceIte]
  rw [skipWS_cons_of_not _ _ (by decide)]
  simp only [↓reduceIte]
  rw [quoteJSONString_ne_nil_head, parseValue_quoted]
  simp only [↓reduceIte]
  rw [skipWS_cons_of_not _ _ (by decide)]
  simp only [↓reduceIte]
  rw [quoteJSONString_ne_nil_head, hk keyCompleted, parseMembers_succ_cons,
    parseStringChars_quoteChars]
  simp only [↓reduceIte]
  rw [skipWS_cons_of_not _ _ (by decide)]
  simp only [↓reduceIte]
  rw [hb, parseValue_bool]
  simp only [↓reduceIte]
  rw [skipWS_cons_of_not _ _ (by decide)]
  simp only [↓reduceIte, Nat.reduceEqDiff]
  simp [Task.toJSON, setProp, keyText, keyCompleted]

theorem parseValue_task (fuel : Nat) (t : Task) (rest : List Nat) :
    parseValue (fuel + 4) (stringifyTask t ++ rest) = some (t.toJSON, rest) := by
  have hs : stringifyTask t ++ rest =
      0x7B :: (quoteJSONString keyText ++ 0x3A :: (quoteJSONString t.text ++
        0x2C :: (quoteJSONString keyCompleted ++ 0x3A ::
          ((if t.completed then litTrue else litFalse) ++ 0x7D :: rest)))) := by
    simp [stringifyTask]
  have hq : ∀ r : List Nat, quoteJSONString keyText ++ r =
      0x22 :: (quoteChars keyText ++ 0x22 :: r) := by
    intro r; simp [quoteJSONString]
  rw [hs, parseValue_succ_cons, if_neg (by decide), if_pos rfl, quoteJSONString_ne_nil_head]
  have := parseMembers_task fuel t rest
  rw [hq] at this ⊢
  simp only [↓reduceIte, Nat.reduceEqDiff]
  rw [this]

theorem stringifyItems_cons_head (t : Task) (ts : List Task) :
    ∃ tail, stringifyItems (t :: ts) = 0x7B :: tail := by
  cases ts with
  | nil => exact ⟨_, rfl⟩
  | cons u us => exact ⟨_, rfl⟩

theorem parseElements_tasks (ts : List Task) :
    ∀ (fuel : Nat) (t : Task) (acc : List JSON) (rest : List Nat),
      parseElements (fuel + ts.length + 5) (stringifyItems (t :: ts) ++ 0x5D :: rest) acc =
        some (.arr (acc ++ (t :: ts).map Task.toJSON), rest) := by
  induction ts with
  | nil =>
    intro fuel t acc rest
    simp only [stringifyItems, List.length_nil, Nat.add_zero]
    rw [parseElements_succ, parseValue_task]
    simp only []
    rw [skipWS_cons_of_not _ _ (by decide)]
    simp
  | cons u us ih =>
    intro fuel t acc rest
    obtain ⟨tail, htail⟩ := stringifyItems_cons_head u us
    have hfuel : fuel + (u :: us).length + 5 = (fuel + us.length + 5) + 1 := by
      simp only [List.length_cons]; omega
    have hfuel2 : fuel + us.length + 5 = (fuel + us.length + 1) + 4 := by omega
    rw [hfuel, parseElements_succ, stringifyItems, List.append_assoc]
    conv_lhs => rw [hfuel2, parseValue_task]
    simp only [List.cons_append]
    rw [skipWS_cons_of_not _ _ (by decide)]
    simp only [↓reduceIte]
    have hskip : skipWS (stringifyItems (u :: us) ++ 0x5D :: rest) =
        stringifyItems (u :: us) ++ 0x5D :: rest := by
      rw [htail]; exact skipWS_cons_of_not _ _ (by decide)
    rw [hskip, ← hfuel2, ih]
    simp

theorem parseValue_tasks (ts : List Task) (fuel : Nat) (rest : List Nat) :
    parseValue (fuel + ts.length + 6) (JSON_stringify ts ++ rest) =
      some (tasksToJSON ts, rest) := by
  cases ts with
  | nil =>
    simp only [JSON_stringify, stringifyItems, List.length_nil, List.nil_append,
      List.cons_append]
    rw [parseValue_succ_cons, if_pos rfl, skipWS_cons_of_not _ _ (by decide)]
    simp [tasksToJSON]
  | cons t us =>
    obtain ⟨tail, htail⟩ := stringifyItems_cons_head t us
    have hfuel : fuel + (t :: us).length + 6 = (fuel + 1 + us.length + 5) + 1 := by
      simp only [List.length_cons]; omega
    have hs : JSON_stringify (t :: us) ++ rest =
        0x5B :: (stringifyItems (t :: us) ++ 0x5D :: rest) := by
      simp [JSON_stringify]
    rw [hfuel, hs, parseValue_succ_cons, if_pos rfl]
    have hskip : skipWS (stringifyItems (t :: us) ++ 0x5D :: rest) =
        0x7B :: (tail ++ 0x5D :: rest) := by
      rw [htail]; exact skipWS_cons_of_not _ _ (by decide)
    rw [hskip]
    simp only [↓reduceIte, Nat.reduceEqDiff]
    rw [← List.cons_append, ← htail, parseElements_tasks]
    simp [tasksToJSON]

theorem length_le_stringifyItems (ts : List Task) :
    ts.length ≤ (stringifyItems ts).length := by
  induction ts with
  | nil => simp
  | cons t us ih =>
    cases us with
    | nil => simp [stringifyItems, stringifyTask]
    | cons u vs =>
      simp only [stringifyItems, List.length_append, List.length_cons] at ih ⊢
      omega

/-- What was written by `JSON.stringify` is read back by `JSON.parse`. -/
theorem JSON_parse_stringify (ts : List Task) :
    JSON_parse (JSON_stringify ts) = .ok (tasksToJSON ts) := by
  have hlen : ts.length + 6 ≤ 2 * (JSON_stringify ts).length + 2 := by
    have := length_le_stringifyItems ts
    simp only [JSON_stringify, List.length_cons, List.length_append, List.length_nil]
    omega
  obtain ⟨k, hk⟩ := Nat.exists_eq_add_of_le hlen
  have hskip : skipWS (JSON_stringify ts) = JSON_stringify ts :=
    skipWS_cons_of_not _ _ (by decide)
  have hfuel : 2 * (JSON_stringify ts).length + 2 = k + ts.length + 6 := by omega
  have hp := parseValue_tasks ts k []
  rw [List.append_nil] at hp
  unfold JSON_parse
  rw [hskip, hfuel, hp]
  simp [skipWS]

/-! ## Strings and arrays -/

theorem trim_eq_nil_iff (s : JSString) :
    trim s = [] ↔ ∀ c ∈ s, isWhiteSpace c = true := by
  unfold trim
  rw [List.reverse_eq_nil_iff, List.dropWhile_eq_nil_iff]
  constructor
  · intro h
    have hd : s.dropWhile isWhiteSpace = [] := by
      by_contra hne
      have hpos : 0 < (s.dropWhile isWhiteSpace).length := List.length_pos.mpr hne
      have h0 := List.dropWhile_get_zero_not isWhiteSpace s hpos
      exact h0 (h _ (List.mem_reverse.mpr (List.get_mem _ _ _)))
    exact List.dropWhile_eq_nil_iff.mp hd
  · intro h c hc
    have hd : s.dropWhile isWhiteSpace = [] := List.dropWhile_eq_nil_iff.mpr h
    rw [hd] at hc
    simp at hc

theorem trim_subset (s : JSString) : ∀ c ∈ trim s, c ∈ s := by
  intro c hc
  unfold trim at hc
  rw [List.mem_reverse] at hc
  have h1 := (List.dropWhile_sublist isWhiteSpace).subset hc
  rw [List.mem_reverse] at h1
  exact (List.dropWhile_sublist isWhiteSpace).subset h1

theorem goodText_trim (s : JSString) (h : trim s ≠ []) : goodText (trim s) := by
  refine ⟨h, ?_⟩
  intro hall
  unfold trim at h hall
  set r := (s.dropWhile isWhiteSpace).reverse with hr
  have hne : r.dropWhile isWhiteSpace ≠ [] := by
    intro h0; exact h (by rw [h0]; rfl)
  have hpos : 0 < (r.dropWhile isWhiteSpace).length := List.length_pos.mpr hne
  have h0 := List.dropWhile_get_zero_not isWhiteSpace r hpos
  exact h0 (hall _ (List.mem_reverse.mpr (List.get_mem _ _ _)))

theorem at?_natCast (ts : List Task) (i : Nat) : at? ts (i : Int) = ts[i]? := by
  simp [at?]

theorem at?_eq_none (ts : List Task) (index : Int)
    (h : index < 0 ∨ (ts.length : Int) ≤ index) : at? ts index = none := by
  unfold at?
  split
  · rw [List.getElem?_eq_none_iff]
    omega
  · rfl

theorem at?_eq_some (ts : List Task) (index : Int) (t : Task) (h : at? ts index = some t) :
    0 ≤ index ∧ ts[index.toNat]? = some t := by
  unfold at? at h
  split at h
  · exact ⟨by assumption, h⟩
  · cases h

theorem splice_one_natCast (ts : List Task) (i : Nat) (h : i < ts.length) :
    splice ts (i : Int) 1 = ts.eraseIdx i := by
  have h1 : ¬ ((i : Int) < 0) := by omega
  have h2 : min (i : Int) (ts.length : Int) = i := by omega
  have h3 : min (max (1 : Int) 0) ((ts.length : Int) - i) = 1 := by omega
  simp only [splice, if_neg h1, h2, h3]
  rw [List.eraseIdx_eq_take_drop_succ]
  congr 2

theorem splice_one_of_length_le (ts : List Task) (index : Int)
    (h : (ts.length : Int) ≤ index) : splice ts index 1 = ts := by
  have h1 : ¬ (index < 0) := by omega
  have h2 : min index (ts.length : Int) = ts.length := by omega
  simp only [splice, if_neg h1, h2]
  simp

theorem splice_one_of_neg (ts : List Task) (index : Int) (h : index < 0) :
    splice ts index 1 = ts.eraseIdx ((ts.length : Int) + index).toNat := by
  simp only [splice, if_pos h]
  rw [List.eraseIdx_eq_take_drop_succ]
  by_cases hl : ts.length = 0
  · have : ts = [] := List.length_eq_zero.mp hl
    subst this
    simp
  · have h3 : min (max (1 : Int) 0)
        ((ts.length : Int) - max ((ts.length : Int) + index) 0) = 1 := by omega
    rw [h3]
    congr 2 <;> omega

@[simp] theorem renderTasks_tasks (st : State) : (renderTasks st).tasks = st.tasks := rfl

@[simp] theorem renderTasks_storage (st : State) : (renderTasks st).storage = st.storage := rfl

@[simp] theorem saveTasks_tasks (st : State) : (saveTasks st).tasks = st.tasks := rfl

@[simp] theorem saveTasks_storage (st : State) :
    (saveTasks st).storage = some (JSON_stringify st.tasks) := rfl

theorem deleteTask_tasks (st : State) (index : Int) :
    (deleteTask st index).tasks = splice st.tasks index 1 := rfl

theorem renderRows_getElem? (ts : List Task) (k : Nat) :
    (renderRows ts)[k]? =
      ts[k]?.map (fun t => { index := k, completed := t.completed, text := t.text }) := by
  simp only [renderRows, List.getElem?_map, List.getElem?_enum]
  cases ts[k]? <;> rfl

theorem renderRows_map_task (ts : List Task) :
    (renderRows ts).map Row.task = ts := by
  simp only [renderRows, List.map_map]
  conv_rhs => rw [← List.enum_map_snd ts]
  apply List.map_congr_left
  intro p _
  rfl


theorem toggleComplete_of_lt (st : State) (i : Nat) (h : i < st.tasks.length) :
    toggleComplete st i = .ok (renderTasks (saveTasks
      { st with tasks := st.tasks.set i ⟨st.tasks[i].text, !st.tasks[i].completed⟩ })) := by
  have hat : at? st.tasks (i : Int) = some st.tasks[i] := by
    rw [at?_natCast, List.getElem?_eq_getElem h]
  simp only [toggleComplete, hat, Int.toNat_ofNat]

theorem editTask_of_lt (st : State) (i : Nat) (h : i < st.tasks.length) (s : JSString)
    (hs : trim s ≠ []) :
    editTask st i (some s) = .ok (renderTasks (saveTasks
      { st with tasks := st.tasks.set i ⟨trim s, st.tasks[i].completed⟩ })) := by
  have hat : at? st.tasks (i : Int) = some st.tasks[i] := by
    rw [at?_natCast, List.getElem?_eq_getElem h]
  simp only [editTask, hat, hs, ne_eq, not_false_eq_true, if_true, Int.toNat_ofNat]

/-! ## The operations on the task list -/

/-- C3. `addTask` with a text that is not empty after trimming appends exactly
one task with the trimmed text and `completed = false`: the length grows by one
and the earlier tasks keep their places. With a text that is empty after
trimming, which is the case exactly when every character of the input is white
space, the whole page (task list, stored value, input field) stays as it was. -/
theorem addTask_spec (st : State) :
    (trim st.inputValue ≠ [] →
      (addTask st).tasks = st.tasks ++ [{ text := trim st.inputValue, completed := false }] ∧
      (addTask st).tasks.length = st.tasks.length + 1 ∧
      ∀ j, j < st.tasks.length → (addTask st).tasks[j]? = st.tasks[j]?) ∧
    (trim st.inputValue = [] → addTask st = st) ∧
    (trim st.inputValue = [] ↔ ∀ c ∈ st.inputValue, isWhiteSpace c = true) := by
  refine ⟨?_, ?_, trim_eq_nil_iff _⟩
  · intro h
    have ht : (addTask st).tasks =
        st.tasks ++ [{ text := trim st.inputValue, completed := false }] := by
      simp [addTask, h]
    refine ⟨ht, ?_, ?_⟩
    · rw [ht]; simp
    · intro j hj
      rw [ht, List.getElem?_append_left hj]
  · intro h
    simp [addTask, h]

theorem addTask_spec_witness :
    (addTask { emptyState with inputValue := ascii " A " }).tasks =
        [{ text := ascii "A", completed := false }] ∧
      addTask { emptyState with inputValue := ascii "   " } =
        { emptyState with inputValue := ascii "   " } :=
  ⟨((addTask_spec { emptyState with inputValue := ascii " A " }).1 (by decide)).1,
    (addTask_spec { emptyState with inputValue := ascii "   " }).2.1 (by decide)⟩

/-- C4. `deleteTask(i)` with `i` in range removes exactly the task at `i`: the
length drops by one, the tasks before `i` keep their places and the task at an
old place `j > i` is at `j - 1`. After adding `A` and `B` to the empty list,
`deleteTask(0)` leaves the one task `B`, not completed. -/
theorem deleteTask_spec (st : State) (i : Nat) (h : i < st.tasks.length) :
    (deleteTask st i).tasks = st.tasks.eraseIdx i ∧
    (deleteTask st i).tasks.length = st.tasks.length - 1 ∧
    (∀ j, j < i → (deleteTask st i).tasks[j]? = st.tasks[j]?) ∧
    (∀ j, i < j → j < st.tasks.length → (deleteTask st i).tasks[j - 1]? = st.tasks[j]?) ∧
    (deleteTask (addTask { addTask { emptyState with inputValue := ascii "A" } with
        inputValue := ascii "B" }) 0).tasks = [{ text := ascii "B", completed := false }] := by
  have ht : (deleteTask st i).tasks = st.tasks.eraseIdx i := by
    rw [deleteTask_tasks, splice_one_natCast _ _ h]
  refine ⟨ht, ?_, ?_, ?_, by decide⟩
  · rw [ht, List.length_eraseIdx_of_lt h]
  · intro j hj
    rw [ht, List.getElem?_eraseIdx_of_lt _ _ _ hj]
  · intro j hj _
    rw [ht, List.getElem?_eraseIdx_of_ge _ _ _ (by omega)]
    congr 1
    omega

theorem deleteTask_spec_witness :
    (deleteTask { emptyState with tasks := [⟨ascii "A", false⟩, ⟨ascii "B", true⟩] } 0).tasks =
      [⟨ascii "B", true⟩] :=
  (deleteTask_spec { emptyState with tasks := [⟨ascii "A", false⟩, ⟨ascii "B", true⟩] } 0
    (by decide)).1

/-- C5. `toggleComplete(i)` with `i` in range negates `completed` at `i` and
leaves the text there, every other task, the length and the order as they were;
run twice it gives the list back. -/
theorem toggleComplete_spec (st : State) (i : Nat) (h : i < st.tasks.length) :
    ∃ st1, toggleComplete st i = .ok st1 ∧
      st1.tasks.length = st.tasks.length ∧
      st1.tasks[i]? = some { text := st.tasks[i].text, completed := !st.tasks[i].completed } ∧
      (∀ j, j ≠ i → st1.tasks[j]? = st.tasks[j]?) ∧
      ∃ st2, toggleComplete st1 i = .ok st2 ∧ st2.tasks = st.tasks := by
  refine ⟨_, toggleComplete_of_lt st i h, ?_, ?_, ?_, ?_⟩
  · simp
  · simp [List.getElem?_set, h]
  · intro j hj
    simp [List.getElem?_set, Ne.symm hj]
  · refine ⟨_, toggleComplete_of_lt _ i (by simpa using h), ?_⟩
    simp only [renderTasks_tasks, saveTasks_tasks, List.getElem_set_self, List.set_set,
      Bool.not_not]
    apply List.ext_getElem?
    intro j
    rw [List.getElem?_set]
    split
    · subst_vars; simp [h]
    · rfl

theorem toggleComplete_spec_witness :
    ∃ st1, toggleComplete { emptyState with tasks := [⟨ascii "A", false⟩] } 0 = .ok st1 ∧
      st1.tasks.length = 1 ∧
      st1.tasks[0]? = some { text := ascii "A", completed := true } ∧
      (∀ j, j ≠ 0 → st1.tasks[j]? = [Task.mk (ascii "A") false][j]?) ∧
      ∃ st2, toggleComplete st1 0 = .ok st2 ∧ st2.tasks = [⟨ascii "A", false⟩] :=
  toggleComplete_spec { emptyState with tasks := [⟨ascii "A", false⟩] } 0 (by decide)

/-- C6. `editTask(i)` with `i` in range: when the prompt is cancelled or its
result is empty after trimming, the whole page stays as it was; otherwise the
task at `i` gets the trimmed result as its text and keeps `completed`, and
every other task, the length and the order stay as they were. -/
theorem editTask_spec (st : State) (i : Nat) (h : i < st.tasks.length)
    (r : Option JSString) :
    ((r = none ∨ ∃ s, r = some s ∧ trim s = []) → editTask st i r = .ok st) ∧
    (∀ s, r = some s → trim s ≠ [] →
      ∃ st1, editTask st i r = .ok st1 ∧
        st1.tasks.length = st.tasks.length ∧
        st1.tasks[i]? = some { text := trim s, completed := st.tasks[i].completed } ∧
        ∀ j, j ≠ i → st1.tasks[j]? = st.tasks[j]?) := by
  have hat : at? st.tasks (i : Int) = some st.tasks[i] := by
    rw [at?_natCast, List.getElem?_eq_getElem h]
  constructor
  · rintro (rfl | ⟨s, rfl, hs⟩)
    · simp only [editTask, hat]
    · simp only [editTask, hat, hs, ne_eq, not_true_eq_false, if_false]
  · rintro s rfl hs
    refine ⟨_, editTask_of_lt st i h s hs, ?_, ?_, ?_⟩
    · simp
    · simp [List.getElem?_set, h]
    · intro j hj
      simp [List.getElem?_set, Ne.symm hj]

theorem editTask_spec_witness :
    editTask { emptyState with tasks := [⟨ascii "A", true⟩] } 0 none =
        .ok { emptyState with tasks := [⟨ascii "A", true⟩] } ∧
      ∃ st1, editTask { emptyState with tasks := [⟨ascii "A", true⟩] } 0 (some (ascii " B ")) =
          .ok st1 ∧
        st1.tasks.length = 1 ∧
        st1.tasks[0]? = some { text := ascii "B", completed := true } ∧
        ∀ j, j ≠ 0 → st1.tasks[j]? = [Task.mk (ascii "A") true][j]? :=
  ⟨(editTask_spec { emptyState with tasks := [⟨ascii "A", true⟩] } 0 (by decide) none).1
      (Or.inl rfl),
    (editTask_spec { emptyState with tasks := [⟨ascii "A", true⟩] } 0 (by decide)
      (some (ascii " B "))).2 (ascii " B ") rfl (by decide)⟩


/-- C7, as the claim states it, fails: on the empty list `toggleComplete(0)`
and `editTask(0)` throw a `TypeError`, and on a list of one task
`deleteTask(-1)` removes that task. -/
theorem outOfBounds_counterexample :
    toggleComplete emptyState 0 = .error .TypeError ∧
    editTask emptyState 0 (some (ascii "x")) = .error .TypeError ∧
    (deleteTask { emptyState with tasks := [⟨ascii "A", false⟩] } (-1)).tasks = [] :=
  ⟨rfl, rfl, by decide⟩

/-- C7, amended. With an index out of range `editTask` and `toggleComplete`
throw a `TypeError` and change nothing; `deleteTask` throws nothing, leaves the
list as it was when the index is at least the length, and with a negative index
removes the task at `max (length + index) 0`, counted from the end as `splice`
does. -/
theorem outOfBounds_spec (st : State) (index : Int) (r : Option JSString)
    (h : index < 0 ∨ (st.tasks.length : Int) ≤ index) :
    editTask st index r = .error .TypeError ∧
    toggleComplete st index = .error .TypeError ∧
    ((st.tasks.length : Int) ≤ index → (deleteTask st index).tasks = st.tasks) ∧
    (index < 0 →
      (deleteTask st index).tasks =
        st.tasks.eraseIdx ((st.tasks.length : Int) + index).toNat) := by
  have hat := at?_eq_none st.tasks index h
  refine ⟨by simp only [editTask, hat], by simp only [toggleComplete, hat], ?_, ?_⟩
  · intro hl
    rw [deleteTask_tasks, splice_one_of_length_le _ _ hl]
  · intro hn
    rw [deleteTask_tasks, splice_one_of_neg _ _ hn]

theorem outOfBounds_spec_witness :
    editTask { emptyState with tasks := [⟨ascii "A", false⟩] } 1 none = .error .TypeError ∧
    toggleComplete { emptyState with tasks := [⟨ascii "A", false⟩] } 1 = .error .TypeError ∧
    (deleteTask { emptyState with tasks := [⟨ascii "A", false⟩] } 1).tasks =
      [⟨ascii "A", false⟩] ∧
    (deleteTask { emptyState with tasks := [⟨ascii "A", false⟩, ⟨ascii "B", false⟩] }
      (-1)).tasks = [⟨ascii "A", false⟩] :=
  ⟨(outOfBounds_spec { emptyState with tasks := [⟨ascii "A", false⟩] } 1 none
      (Or.inr (by decide))).1,
    (outOfBounds_spec { emptyState with tasks := [⟨ascii "A", false⟩] } 1 none
      (Or.inr (by decide))).2.1,
    (outOfBounds_spec { emptyState with tasks := [⟨ascii "A", false⟩] } 1 none
      (Or.inr (by decide))).2.2.1 (by decide),
    (outOfBounds_spec { emptyState with tasks := [⟨ascii "A", false⟩, ⟨ascii "B", false⟩] }
      (-1) none (Or.inl (by decide))).2.2.2 (by decide)⟩

/-- C8. The rows `filterTasks` draws show, in the order of the task list,
exactly the tasks that are not completed for `active`, exactly the completed
ones for `completed`, and the whole list for any other filter; the task list,
the stored value, the input field and the counter are left as they were. -/
theorem filterTasks_spec (st : State) (filter : JSString) :
    (filter = ascii "active" →
      (filterTasks st filter).rows.map Row.task =
        st.tasks.filter (fun t => t.completed = false)) ∧
    (filter = ascii "completed" →
      (filterTasks st filter).rows.map Row.task =
        st.tasks.filter (fun t => t.completed = true)) ∧
    (filter ≠ ascii "active" → filter ≠ ascii "completed" →
      (filterTasks st filter).rows.map Row.task = st.tasks) ∧
    ((filterTasks st filter).rows.map Row.task).Sublist st.tasks ∧
    (filterTasks st filter).tasks = st.tasks ∧
    (filterTasks st filter).storage = st.storage ∧
    (filterTasks st filter).inputValue = st.inputValue ∧
    (filterTasks st filter).counter = st.counter := by
  have hrows : (filterTasks st filter).rows.map Row.task = filteredTasks st.tasks filter :=
    renderRows_map_task _
  refine ⟨?_, ?_, ?_, ?_, rfl, rfl, rfl, rfl⟩
  · intro hf
    rw [hrows, filteredTasks, if_pos hf]
    congr 1
    funext t
    cases t.completed <;> rfl
  · intro hf
    have hne : filter ≠ ascii "active" := by rw [hf]; decide
    rw [hrows, filteredTasks, if_neg hne, if_pos hf]
    congr 1
    funext t
    cases t.completed <;> rfl
  · intro h1 h2
    rw [hrows, filteredTasks, if_neg h1, if_neg h2]
  · rw [hrows]
    unfold filteredTasks
    split
    · exact List.filter_sublist _
    · split
      · exact List.filter_sublist _
      · exact List.Sublist.refl _

theorem filterTasks_spec_witness :
    (filterTasks { emptyState with tasks := [⟨ascii "A", true⟩, ⟨ascii "B", false⟩] }
        (ascii "active")).rows.map Row.task = [⟨ascii "B", false⟩] ∧
    (filterTasks { emptyState with tasks := [⟨ascii "A", true⟩, ⟨ascii "B", false⟩] }
        (ascii "completed")).rows.map Row.task = [⟨ascii "A", true⟩] ∧
    (filterTasks { emptyState with tasks := [⟨ascii "A", true⟩, ⟨ascii "B", false⟩] }
        (ascii "all")).rows.map Row.task = [⟨ascii "A", true⟩, ⟨ascii "B", false⟩] :=
  ⟨(filterTasks_spec { emptyState with tasks := [⟨ascii "A", true⟩, ⟨ascii "B", false⟩] }
      (ascii "active")).1 rfl,
    (filterTasks_spec { emptyState with tasks := [⟨ascii "A", true⟩, ⟨ascii "B", false⟩] }
      (ascii "completed")).2.1 rfl,
    (filterTasks_spec { emptyState with tasks := [⟨ascii "A", true⟩, ⟨ascii "B", false⟩] }
      (ascii "all")).2.2.1 (by decide) (by decide)⟩


/-! ## Storage -/

theorem loadTasks_stringify (ts : List Task) :
    loadTasks (some (JSON_stringify ts)) = .ok (tasksToJSON ts) := by
  simp [loadTasks, toStringOrNull, JSON_parse_stringify, tasksToJSON, truthy]

/-- C2. Saving a task list with `saveTasks` and loading it as at startup gives
back an array of the same length that holds, place by place, the objects with
the same `text` and `completed`. -/
theorem save_load_roundtrip (st : State) :
    loadTasks (saveTasks st).storage = .ok (tasksToJSON st.tasks) ∧
    ∃ items, tasksToJSON st.tasks = .arr items ∧ items.length = st.tasks.length ∧
      ∀ k : Nat, items[k]? = st.tasks[k]?.map
        (fun t : Task => JSON.obj [(keyText, .str t.text), (keyCompleted, .bool t.completed)]) := by
  refine ⟨loadTasks_stringify st.tasks, st.tasks.map Task.toJSON, rfl, by simp, ?_⟩
  intro k
  rw [List.getElem?_map]
  rfl

/-! ## The text invariant -/

theorem splice_subset (ts : List Task) (start deleteCount : Int) :
    ∀ t ∈ splice ts start deleteCount, t ∈ ts := by
  intro t ht
  simp only [splice, List.mem_append] at ht
  rcases ht with ht | ht
  · exact List.mem_of_mem_take ht
  · exact List.mem_of_mem_drop ht

theorem addTask_preserves (st : State) (h : AllGood st.tasks) :
    AllGood (addTask st).tasks ∧
      (addTask st = st ∨ (addTask st).storage = some (JSON_stringify (addTask st).tasks)) := by
  by_cases ht : trim st.inputValue = []
  · have : addTask st = st := by simp [addTask, ht]
    rw [this]
    exact ⟨h, Or.inl rfl⟩
  · have hts : (addTask st).tasks =
        st.tasks ++ [{ text := trim st.inputValue, completed := false }] := by
      simp [addTask, ht]
    refine ⟨?_, Or.inr (by simp [addTask, ht])⟩
    intro t hmem
    rw [hts, List.mem_append, List.mem_singleton] at hmem
    rcases hmem with hmem | rfl
    · exact h t hmem
    · exact goodText_trim _ ht

theorem deleteTask_preserves (st : State) (index : Int) (h : AllGood st.tasks) :
    AllGood (deleteTask st index).tasks ∧
      (deleteTask st index).storage = some (JSON_stringify (deleteTask st index).tasks) :=
  ⟨fun t ht => h t (splice_subset _ _ _ t ht), rfl⟩

theorem editTask_preserves (st st1 : State) (index : Int) (r : Option JSString)
    (h : AllGood st.tasks) (hstep : editTask st index r = .ok st1) :
    AllGood st1.tasks ∧ (st1 = st ∨ st1.storage = some (JSON_stringify st1.tasks)) := by
  unfold editTask at hstep
  split at hstep
  · cases hstep
  · split at hstep
    · cases hstep; exact ⟨h, Or.inl rfl⟩
    · split at hstep
      · rename_i hne
        cases hstep
        refine ⟨?_, Or.inr rfl⟩
        intro t hmem
        rcases List.mem_or_eq_of_mem_set hmem with hmem | rfl
        · exact h t hmem
        · exact goodText_trim _ hne
      · cases hstep; exact ⟨h, Or.inl rfl⟩

theorem toggleComplete_preserves (st st1 : State) (index : Int)
    (h : AllGood st.tasks) (hstep : toggleComplete st index = .ok st1) :
    AllGood st1.tasks ∧ st1.storage = some (JSON_stringify st1.tasks) := by
  unfold toggleComplete at hstep
  split at hstep
  · cases hstep
  · rename_i task hat
    cases hstep
    refine ⟨?_, rfl⟩
    intro t hmem
    rcases List.mem_or_eq_of_mem_set hmem with hmem | rfl
    · exact h t hmem
    · exact h task (List.getElem?_mem (at?_eq_some _ _ _ hat).2)

theorem reachable_invariant (st : State) (h : Reachable st) :
    AllGood st.tasks ∧ loadTasks st.storage = .ok (tasksToJSON st.tasks) := by
  induction h with
  | start => exact ⟨fun t ht => (by cases ht), rfl⟩
  | add st s _ ih =>
    have hp := addTask_preserves { st with inputValue := s } ih.1
    refine ⟨hp.1, ?_⟩
    rcases hp.2 with he | he
    · rw [he]; exact ih.2
    · rw [he]; exact loadTasks_stringify _
  | delete st index _ ih =>
    have hp := deleteTask_preserves st index ih.1
    exact ⟨hp.1, by rw [hp.2]; exact loadTasks_stringify _⟩
  | edit st st1 index r _ hstep ih =>
    have hp := editTask_preserves st st1 index r ih.1 hstep
    refine ⟨hp.1, ?_⟩
    rcases hp.2 with he | he
    · rw [he]; exact ih.2
    · rw [he]; exact loadTasks_stringify _
  | toggle st st1 index _ hstep ih =>
    have hp := toggleComplete_preserves st st1 index ih.1 hstep
    exact ⟨hp.1, by rw [hp.2]; exact loadTasks_stringify _⟩

/-- C9. If every task has a text that is not empty and not white space only,
the same holds after `addTask` with any input, and after `editTask` (any prompt
result), `deleteTask` and `toggleComplete` with an index in range, which all
return; storage is then either untouched or holds the resulting list. Hence in
every page reachable from the empty one all texts are of that kind, and the
stored value reads back as the list in memory. -/
theorem text_invariant (st : State) (h : AllGood st.tasks) :
    (∀ s : JSString,
      AllGood (addTask { st with inputValue := s }).tasks ∧
      ((addTask { st with inputValue := s }).storage = st.storage ∨
        (addTask { st with inputValue := s }).storage =
          some (JSON_stringify (addTask { st with inputValue := s }).tasks))) ∧
    (∀ (i : Nat) (r : Option JSString), i < st.tasks.length →
      ∃ st1, editTask st i r = .ok st1 ∧ AllGood st1.tasks ∧
        (st1.storage = st.storage ∨ st1.storage = some (JSON_stringify st1.tasks))) ∧
    (∀ i : Nat, i < st.tasks.length →
      AllGood (deleteTask st i).tasks ∧
        (deleteTask st i).storage = some (JSON_stringify (deleteTask st i).tasks)) ∧
    (∀ i : Nat, i < st.tasks.length →
      ∃ st1, toggleComplete st i = .ok st1 ∧ AllGood st1.tasks ∧
        st1.storage = some (JSON_stringify st1.tasks)) ∧
    (∀ st1, Reachable st1 →
      AllGood st1.tasks ∧ loadTasks st1.storage = .ok (tasksToJSON st1.tasks)) := by
  refine ⟨?_, ?_, ?_, ?_, reachable_invariant⟩
  · intro s
    have hp := addTask_preserves { st with inputValue := s } h
    refine ⟨hp.1, ?_⟩
    rcases hp.2 with he | he
    · left; rw [he]
    · right; exact he
  · intro i r hi
    have hat : at? st.tasks (i : Int) = some st.tasks[i] := by
      rw [at?_natCast, List.getElem?_eq_getElem hi]
    have hex : ∃ st1, editTask st i r = .ok st1 := by
      unfold editTask
      rw [hat]
      cases r with
      | none => exact ⟨_, rfl⟩
      | some s =>
        by_cases hs : trim s = []
        · exact ⟨st, by simp [hs]⟩
        · exact ⟨_, by simp only [ne_eq, hs, not_false_eq_true, if_true]; rfl⟩
    obtain ⟨st1, hst1⟩ := hex
    have hp := editTask_preserves st st1 i r h hst1
    refine ⟨st1, hst1, hp.1, ?_⟩
    rcases hp.2 with he | he
    · left; rw [he]
    · right; exact he
  · intro i _
    exact deleteTask_preserves st i h
  · intro i hi
    have hp := toggleComplete_preserves st _ i h (toggleComplete_of_lt st i hi)
    exact ⟨_, toggleComplete_of_lt st i hi, hp⟩


theorem text_invariant_witness :
    AllGood (addTask { emptyState with inputValue := ascii " A " }).tasks ∧
      ((addTask { emptyState with inputValue := ascii " A " }).storage = emptyState.storage ∨
        (addTask { emptyState with inputValue := ascii " A " }).storage =
          some (JSON_stringify (addTask { emptyState with inputValue := ascii " A " }).tasks)) :=
  (text_invariant emptyState (fun t ht => (by cases ht))).1 (ascii " A ")

/-! ## Row indices under a filter -/

/-- C10. The rows `filterTasks` draws carry the indices `0, 1, 2, ...` of
their places in the filtered array. With the list `A` (completed), `B` (not
completed) and the filter `active`, the one row shows `B` with index `0` while
`B` is at place `1` of the list; a click on any of its three controls is
handed index `0` and changes or removes `A`, and leaves `B` as it was. -/
theorem filtered_row_index :
    (∀ (st : State) (filter : JSString),
      (filterTasks st filter).rows.map Row.index =
        List.range (filterTasks st filter).rows.length) ∧
    ∃ (st : State) (filter : JSString) (row : Row),
      (filter = ascii "active" ∨ filter = ascii "completed") ∧
      row ∈ (filterTasks st filter).rows ∧
      st.tasks[row.index]? ≠ some row.task ∧
      ∀ control : Control,
        ∃ st1, onListClick (filterTasks st filter) control row (some (ascii "C")) = .ok st1 ∧
          row.task ∈ st1.tasks ∧
          st1.tasks[row.index]? ≠ st.tasks[row.index]? := by
  constructor
  · intro st filter
    simp only [filterTasks, renderRows, List.map_map, List.length_map, List.enum_length]
    rw [← List.enum_map_fst]
    rfl
  · refine ⟨{ emptyState with tasks := [⟨ascii "A", true⟩, ⟨ascii "B", false⟩] },
      ascii "active", ⟨0, false, ascii "B"⟩, Or.inl rfl, by decide, by decide, ?_⟩
    intro control
    cases control
    · exact ⟨_, rfl, by decide, by decide⟩
    · exact ⟨_, rfl, by decide, by decide⟩
    · exact ⟨_, rfl, by decide, by decide⟩


/-! ## The recursion bound of the parser -/

theorem skipWS_length_le (s : List Nat) : (skipWS s).length ≤ s.length :=
  (List.dropWhile_sublist isJSONWhiteSpace).length_le

theorem consChar_eq_some (c : Nat) (o : Option (JSString × List Nat)) (t : JSString)
    (rest : List Nat) (h : consChar c o = some (t, rest)) :
    ∃ t1, o = some (t1, rest) := by
  cases o with
  | none => cases h
  | some p =>
    obtain ⟨t1, r1⟩ := p
    simp only [consChar, Option.some.injEq, Prod.mk.injEq] at h
    exact ⟨t1, by rw [h.2]⟩

theorem parseStringChars_length (s : List Nat) :
    ∀ (t : JSString) (rest : List Nat),
      parseStringChars s = some (t, rest) → rest.length < s.length := by
  induction s using parseStringChars.induct with
  | case1 => intro t rest h; simp [parseStringChars] at h
  | case2 rest1 =>
    intro t rest h
    rw [parseStringChars_cons, if_pos rfl] at h
    cases h
    simp
  | case3 _ =>
    intro t rest h
    rw [parseStringChars_cons] at h
    simp at h
  | case4 h1 h2 h3 h4 rest2 a b c d hd hc hb ha _ ih =>
    intro t rest h
    rw [parseStringChars_cons] at h
    simp only [ha, hb, hc, hd] at h
    simp only [Nat.reduceEqDiff, ↓reduceIte] at h
    obtain ⟨t1, ht1⟩ := consChar_eq_some _ _ _ _ h
    have := ih t1 rest ht1
    simp only [List.length_cons]
    omega
  | case5 h1 h2 h3 h4 rest2 hno _ =>
    intro t rest h
    rw [parseStringChars_cons] at h
    simp only [Nat.reduceEqDiff, ↓reduceIte] at h
    cases h
  | case6 rest1 hno _ =>
    intro t rest h
    rw [parseStringChars_cons] at h
    simp only [Nat.reduceEqDiff, ↓reduceIte] at h
    cases h
  | case7 e rest1 he u hu _ ih =>
    intro t rest h
    rw [parseStringChars_cons] at h
    simp only [Nat.reduceEqDiff, ↓reduceIte, he, hu] at h
    obtain ⟨t1, ht1⟩ := consChar_eq_some _ _ _ _ h
    have := ih t1 rest ht1
    simp only [List.length_cons]
    omega
  | case8 e rest1 he hu _ =>
    intro t rest h
    rw [parseStringChars_cons] at h
    simp only [Nat.reduceEqDiff, ↓reduceIte, he, hu] at h
    cases h
  | case9 e rest1 h1 h2 h3 =>
    intro t rest h
    rw [parseStringChars_cons, if_neg h1, if_neg h2, if_pos h3] at h
    cases h
  | case10 e rest1 h1 h2 h3 ih =>
    intro t rest h
    rw [parseStringChars_cons, if_neg h1, if_neg h2, if_neg h3] at h
    obtain ⟨t1, ht1⟩ := consChar_eq_some _ _ _ _ h
    have := ih t1 rest ht1
    simp only [List.length_cons]
    omega


theorem parseFraction_length (s : List Nat) (frac rest : List Nat)
    (h : parseFraction s = some (frac, rest)) : rest.length ≤ s.length := by
  unfold parseFraction at h
  split at h
  · cases h; simp
  · rename_i c rest0
    split at h
    · simp only at h
      split at h
      · cases h
      · cases h
        have := (List.dropWhile_sublist isDigit (l := rest0)).length_le
        simp only [List.length_cons]
        omega
    · cases h; simp

theorem parseExponent_length (s : List Nat) (e : Int) (rest : List Nat)
    (h : parseExponent s = some (e, rest)) : rest.length ≤ s.length := by
  unfold parseExponent at h
  split at h
  · cases h; simp
  · rename_i c rest0
    split at h
    · split at h
      · cases h
      · rename_i sign rest1
        simp only at h
        by_cases hs : sign = 0x2B ∨ sign = 0x2D
        · simp only [if_pos hs] at h
          split at h
          · cases h
          · cases h
            have h1 := (List.dropWhile_sublist isDigit (l := rest1)).length_le
            simp only [List.length_cons]
            omega
        · simp only [if_neg hs] at h
          split at h
          · cases h
          · cases h
            have h1 := (List.dropWhile_sublist isDigit (l := sign :: rest1)).length_le
            simp only [List.length_cons] at h1 ⊢
            omega
    · cases h; simp

theorem parseUnsigned_length (negative : Bool) (s : List Nat) (v : JSON) (rest : List Nat)
    (h : parseUnsigned negative s = some (v, rest)) : rest.length < s.length := by
  unfold parseUnsigned at h
  split at h
  · cases h
  · rename_i c rest0
    split at h
    · simp only at h
      split at h
      · cases h
      · rename_i frac rest2 hf
        split at h
        · cases h
        · rename_i e rest3 he
          cases h
          have h1 := parseFraction_length _ _ _ hf
          have h2 := parseExponent_length _ _ _ he
          have h3 : (if c = 0x30 then rest0 else rest0.dropWhile isDigit).length ≤
              rest0.length := by
            split
            · exact Nat.le_refl _
            · exact (List.dropWhile_sublist isDigit).length_le
          simp only [List.length_cons]
          omega
    · cases h

theorem parseNumber_length (s : List Nat) (v : JSON) (rest : List Nat)
    (h : parseNumber s = some (v, rest)) : rest.length < s.length := by
  unfold parseNumber at h
  split at h
  · cases h
  · rename_i c rest0
    split at h
    · have := parseUnsigned_length _ _ _ _ h
      simp only [List.length_cons]
      omega
    · exact parseUnsigned_length _ _ _ _ h

theorem drop_length_lt_of_isPrefixOf (lit s : List Nat) (n : Nat) (hn : 0 < n)
    (hl : lit.length = n) (h : lit.isPrefixOf s = true) : (s.drop n).length < s.length := by
  have hp : lit <+: s := List.isPrefixOf_iff_prefix.mp h
  have := hp.length_le
  rw [List.length_drop]
  omega

theorem parseScalar_length (s : List Nat) (v : JSON) (rest : List Nat)
    (h : parseScalar s = some (v, rest)) : rest.length < s.length := by
  unfold parseScalar at h
  split at h
  · rename_i hp
    cases h
    exact drop_length_lt_of_isPrefixOf litTrue s 4 (by decide) rfl hp
  · split at h
    · rename_i hp
      cases h
      exact drop_length_lt_of_isPrefixOf litFalse s 5 (by decide) rfl hp
    · split at h
      · rename_i hp
        cases h
        exact drop_length_lt_of_isPrefixOf litNull s 4 (by decide) rfl hp
      · exact parseNumber_length _ _ _ h


theorem parseValue_zero (s : List Nat) : parseValue 0 s = none := by
  rw [parseValue]

theorem parseElements_zero (s : List Nat) (acc : List JSON) : parseElements 0 s acc = none := by
  rw [parseElements]

theorem parseMembers_zero (s : List Nat) (acc : List (JSString × JSON)) :
    parseMembers 0 s acc = none := by
  rw [parseMembers]

theorem parseValue_succ_nil (fuel : Nat) : parseValue (fuel + 1) [] = none := by
  rw [parseValue]

theorem parseMembers_succ_nil (fuel : Nat) (acc : List (JSString × JSON)) :
    parseMembers (fuel + 1) [] acc = none := by
  rw [parseMembers]

theorem parse_mono_succ (fuel : Nat) :
    (∀ s r, parseValue fuel s = some r → parseValue (fuel + 1) s = some r) ∧
    (∀ s acc r, parseElements fuel s acc = some r → parseElements (fuel + 1) s acc = some r) ∧
    (∀ s acc r, parseMembers fuel s acc = some r → parseMembers (fuel + 1) s acc = some r) := by
  induction fuel with
  | zero =>
    refine ⟨?_, ?_, ?_⟩
    · intro s r h; rw [parseValue_zero] at h; cases h
    · intro s acc r h; rw [parseElements_zero] at h; cases h
    · intro s acc r h; rw [parseMembers_zero] at h; cases h
  | succ f ih =>
    obtain ⟨ihV, ihE, ihM⟩ := ih
    refine ⟨?_, ?_, ?_⟩
    · intro s r h
      cases s with
      | nil => rw [parseValue_succ_nil] at h; cases h
      | cons c rest =>
        rw [parseValue_succ_cons] at h ⊢
        by_cases h1 : c = 0x5B
        · simp only [if_pos h1] at h ⊢
          generalize skipWS rest = ws at h ⊢
          cases ws with
          | nil => cases h
          | cons d rest1 =>
            simp only at h ⊢
            by_cases h2 : d = 0x5D
            · simp only [if_pos h2] at h ⊢; exact h
            · simp only [if_neg h2] at h ⊢; exact ihE _ _ _ h
        · simp only [if_neg h1] at h ⊢
          by_cases h3 : c = 0x7B
          · simp only [if_pos h3] at h ⊢
            generalize skipWS rest = ws at h ⊢
            cases ws with
            | nil => cases h
            | cons d rest1 =>
              simp only at h ⊢
              by_cases h2 : d = 0x7D
              · simp only [if_pos h2] at h ⊢; exact h
              · simp only [if_neg h2] at h ⊢; exact ihM _ _ _ h
          · simp only [if_neg h3] at h ⊢
            exact h
    · intro s acc r h
      rw [parseElements_succ] at h ⊢
      cases hv : parseValue f s with
      | none => rw [hv] at h; cases h
      | some p =>
        obtain ⟨v, rest⟩ := p
        rw [hv] at h
        rw [ihV _ _ hv]
        simp only at h ⊢
        generalize skipWS rest = ws at h ⊢
        cases ws with
        | nil => cases h
        | cons d rest1 =>
          simp only at h ⊢
          by_cases h2 : d = 0x2C
          · simp only [if_pos h2] at h ⊢; exact ihE _ _ _ h
          · simp only [if_neg h2] at h ⊢; exact h
    · intro s acc r h
      cases s with
      | nil => rw [parseMembers_succ_nil] at h; cases h
      | cons q rest =>
        rw [parseMembers_succ_cons] at h ⊢
        by_cases h1 : q = 0x22
        · simp only [if_pos h1] at h ⊢
          cases hk : parseStringChars rest with
          | none => rw [hk] at h; cases h
          | some p =>
            obtain ⟨key, rest1⟩ := p
            rw [hk] at h
            simp only at h ⊢
            generalize skipWS rest1 = ws at h ⊢
            cases ws with
            | nil => cases h
            | cons colon rest2 =>
              simp only at h ⊢
              by_cases h2 : colon = 0x3A
              · simp only [if_pos h2] at h ⊢
                cases hv : parseValue f (skipWS rest2) with
                | none => rw [hv] at h; cases h
                | some p =>
                  obtain ⟨v, rest3⟩ := p
                  rw [hv] at h
                  rw [ihV _ _ hv]
                  simp only at h ⊢
                  generalize skipWS rest3 = ws3 at h ⊢
                  cases ws3 with
                  | nil => cases h
                  | cons d rest4 =>
                    simp only at h ⊢
                    by_cases h3 : d = 0x2C
                    · simp only [if_pos h3] at h ⊢; exact ihM _ _ _ h
                    · simp only [if_neg h3] at h ⊢; exact h
              · simp only [if_neg h2] at h; cases h
        · simp only [if_neg h1] at h; cases h

theorem parse_mono (fuel more : Nat) :
    (∀ s r, parseValue fuel s = some r → parseValue (fuel + more) s = some r) ∧
    (∀ s acc r, parseElements fuel s acc = some r →
      parseElements (fuel + more) s acc = some r) ∧
    (∀ s acc r, parseMembers fuel s acc = some r →
      parseMembers (fuel + more) s acc = some r) := by
  induction more with
  | zero => exact ⟨fun _ _ h => h, fun _ _ _ h => h, fun _ _ _ h => h⟩
  | succ k ih =>
    obtain ⟨ihV, ihE, ihM⟩ := ih
    obtain ⟨sV, sE, sM⟩ := parse_mono_succ (fuel + k)
    exact ⟨fun s r h => sV s r (ihV s r h), fun s acc r h => sE s acc r (ihE s acc r h),
      fun s acc r h => sM s acc r (ihM s acc r h)⟩

theorem parseValue_mono (f g : Nat) (hfg : f ≤ g) (s : List Nat) (r : JSON × List Nat)
    (h : parseValue f s = some r) : parseValue g s = some r := by
  obtain ⟨k, rfl⟩ := Nat.exists_eq_add_of_le hfg
  exact (parse_mono f k).1 s r h

theorem parseElements_mono (f g : Nat) (hfg : f ≤ g) (s : List Nat) (acc : List JSON)
    (r : JSON × List Nat) (h : parseElements f s acc = some r) :
    parseElements g s acc = some r := by
  obtain ⟨k, rfl⟩ := Nat.exists_eq_add_of_le hfg
  exact (parse_mono f k).2.1 s acc r h

theorem parseMembers_mono (f g : Nat) (hfg : f ≤ g) (s : List Nat)
    (acc : List (JSString × JSON)) (r : JSON × List Nat)
    (h : parseMembers f s acc = some r) : parseMembers g s acc = some r := by
  obtain ⟨k, rfl⟩ := Nat.exists_eq_add_of_le hfg
  exact (parse_mono f k).2.2 s acc r h


theorem parse_sufficient (fuel : Nat) :
    (∀ s v rest, parseValue fuel s = some (v, rest) →
      rest.length < s.length ∧ parseValue (2 * s.length) s = some (v, rest)) ∧
    (∀ s acc v rest, parseElements fuel s acc = some (v, rest) →
      rest.length < s.length ∧ parseElements (2 * s.length + 1) s acc = some (v, rest)) ∧
    (∀ s acc v rest, parseMembers fuel s acc = some (v, rest) →
      rest.length < s.length ∧ parseMembers (2 * s.length) s acc = some (v, rest)) := by
  induction fuel with
  | zero =>
    refine ⟨?_, ?_, ?_⟩
    · intro s v rest h; rw [parseValue_zero] at h; cases h
    · intro s acc v rest h; rw [parseElements_zero] at h; cases h
    · intro s acc v rest h; rw [parseMembers_zero] at h; cases h
  | succ f ih =>
    obtain ⟨ihV, ihE, ihM⟩ := ih
    refine ⟨?_, ?_, ?_⟩
    · intro s v rest h
      cases s with
      | nil => rw [parseValue_succ_nil] at h; cases h
      | cons c rest0 =>
        have e : 2 * (c :: rest0).length = (2 * rest0.length + 1) + 1 := by
          simp only [List.length_cons]; omega
        rw [e]
        rw [parseValue_succ_cons] at h ⊢
        by_cases h1 : c = 0x5B
        · simp only [if_pos h1] at h ⊢
          have hle := skipWS_length_le rest0
          cases hws : skipWS rest0 with
          | nil => rw [hws] at h; cases h
          | cons d rest1 =>
            rw [hws] at h hle
            simp only [List.length_cons] at hle
            simp only at h ⊢
            by_cases h2 : d = 0x5D
            · simp only [if_pos h2] at h ⊢
              cases h
              exact ⟨by simp only [List.length_cons]; omega, rfl⟩
            · simp only [if_neg h2] at h ⊢
              obtain ⟨hlen, hp⟩ := ihE _ _ _ _ h
              simp only [List.length_cons] at hlen hp
              refine ⟨by simp only [List.length_cons]; omega, ?_⟩
              exact parseElements_mono _ _ (by omega) _ _ _ hp
        · simp only [if_neg h1] at h ⊢
          by_cases h3 : c = 0x7B
          · simp only [if_pos h3] at h ⊢
            have hle := skipWS_length_le rest0
            cases hws : skipWS rest0 with
            | nil => rw [hws] at h; cases h
            | cons d rest1 =>
              rw [hws] at h hle
              simp only [List.length_cons] at hle
              simp only at h ⊢
              by_cases h2 : d = 0x7D
              · simp only [if_pos h2] at h ⊢
                cases h
                exact ⟨by simp only [List.length_cons]; omega, rfl⟩
              · simp only [if_neg h2] at h ⊢
                obtain ⟨hlen, hp⟩ := ihM _ _ _ _ h
                simp only [List.length_cons] at hlen hp
                refine ⟨by simp only [List.length_cons]; omega, ?_⟩
                exact parseMembers_mono _ _ (by omega) _ _ _ hp
          · simp only [if_neg h3] at h ⊢
            refine ⟨?_, h⟩
            by_cases h4 : c = 0x22
            · simp only [if_pos h4] at h
              cases hk : parseStringChars rest0 with
              | none => rw [hk] at h; cases h
              | some p =>
                obtain ⟨t, rest1⟩ := p
                rw [hk] at h
                cases h
                have := parseStringChars_length _ _ _ hk
                simp only [List.length_cons]
                omega
            · simp only [if_neg h4] at h
              exact parseScalar_length _ _ _ h
    · intro s acc v rest h
      rw [parseElements_succ] at h ⊢
      cases hv : parseValue f s with
      | none => rw [hv] at h; cases h
      | some p =>
        obtain ⟨v1, rest1⟩ := p
        rw [hv] at h
        obtain ⟨hlen1, hp1⟩ := ihV _ _ _ hv
        rw [hp1]
        simp only at h ⊢
        have hle := skipWS_length_le rest1
        cases hws : skipWS rest1 with
        | nil => rw [hws] at h; cases h
        | cons d rest2 =>
          rw [hws] at h hle
          simp only [List.length_cons] at hle
          simp only at h ⊢
          by_cases h2 : d = 0x2C
          · simp only [if_pos h2] at h ⊢
            obtain ⟨hlen, hp⟩ := ihE _ _ _ _ h
            have hle2 := skipWS_length_le rest2
            refine ⟨by omega, ?_⟩
            exact parseElements_mono _ _ (by omega) _ _ _ hp
          · simp only [if_neg h2] at h ⊢
            refine ⟨?_, h⟩
            by_cases h3 : d = 0x5D
            · simp only [if_pos h3] at h
              cases h
              omega
            · simp only [if_neg h3] at h
              cases h
    · intro s acc v rest h
      cases s with
      | nil => rw [parseMembers_succ_nil] at h; cases h
      | cons q rest0 =>
        have e : 2 * (q :: rest0).length = (2 * rest0.length + 1) + 1 := by
          simp only [List.length_cons]; omega
        rw [e]
        rw [parseMembers_succ_cons] at h ⊢
        by_cases h1 : q = 0x22
        · simp only [if_pos h1] at h ⊢
          cases hk : parseStringChars rest0 with
          | none => rw [hk] at h; cases h
          | some p =>
            obtain ⟨key, rest1⟩ := p
            rw [hk] at h
            have hlenk := parseStringChars_length _ _ _ hk
            simp only at h ⊢
            have hle1 := skipWS_length_le rest1
            cases hws : skipWS rest1 with
            | nil => rw [hws] at h; cases h
            | cons colon rest2 =>
              rw [hws] at h hle1
              simp only [List.length_cons] at hle1
              simp only at h ⊢
              by_cases h2 : colon = 0x3A
              · simp only [if_pos h2] at h ⊢
                have hle2 := skipWS_length_le rest2
                cases hv : parseValue f (skipWS rest2) with
                | none => rw [hv] at h; cases h
                | some p =>
                  obtain ⟨v1, rest3⟩ := p
                  rw [hv] at h
                  obtain ⟨hlen3, hp3⟩ := ihV _ _ _ hv
                  rw [parseValue_mono _ (2 * rest0.length + 1) (by omega) _ _ hp3]
                  simp only at h ⊢
                  have hle3 := skipWS_length_le rest3
                  cases hws3 : skipWS rest3 with
                  | nil => rw [hws3] at h; cases h
                  | cons d rest4 =>
                    rw [hws3] at h hle3
                    simp only [List.length_cons] at hle3
                    simp only at h ⊢
                    by_cases h3 : d = 0x2C
                    · simp only [if_pos h3] at h ⊢
                      obtain ⟨hlen, hp⟩ := ihM _ _ _ _ h
                      have hle4 := skipWS_length_le rest4
                      refine ⟨by simp only [List.length_cons]; omega, ?_⟩
                      exact parseMembers_mono _ _ (by omega) _ _ _ hp
                    · simp only [if_neg h3] at h ⊢
                      refine ⟨?_, h⟩
                      by_cases h4 : d = 0x7D
                      · simp only [if_pos h4] at h
                        cases h
                        simp only [List.length_cons]
                        omega
                      · simp only [if_neg h4] at h
                        cases h
              · simp only [if_neg h2] at h; cases h
        · simp only [if_neg h1] at h; cases h


theorem validJSON_iff (text : JSString) :
    ValidJSON text ↔ ∃ v, JSON_parse text = .ok v := by
  constructor
  · rintro ⟨fuel, v, rest, hp, hrest⟩
    obtain ⟨_, hp2⟩ := (parse_sufficient fuel).1 _ _ _ hp
    have hle := skipWS_length_le text
    have hp3 := parseValue_mono _ (2 * text.length + 2) (by omega) _ _ hp2
    exact ⟨v, by simp only [JSON_parse, hp3, hrest, if_true]⟩
  · rintro ⟨v, hv⟩
    unfold JSON_parse at hv
    split at hv
    · rename_i v1 rest hp
      split at hv
      · rename_i hrest
        exact ⟨_, v1, rest, hp, hrest⟩
      · cases hv
    · cases hv

theorem JSON_parse_of_not_valid (text : JSString) (h : ¬ ValidJSON text) :
    JSON_parse text = .error .SyntaxError := by
  cases hp : JSON_parse text with
  | ok v => exact absurd ((validJSON_iff text).mpr ⟨v, hp⟩) h
  | error e =>
    unfold JSON_parse at hp
    split at hp
    · split at hp
      · cases hp
      · cases hp; rfl
    · cases hp; rfl

/-! ## The load at startup -/

/-- C1, as the claim states it, fails: with the stored text `not json`, which
is no JSON text, the load throws a `SyntaxError` and yields no list. -/
theorem loadTasks_counterexample :
    loadTasks (some (ascii "not json")) = .error .SyntaxError :=
  rfl

/-- C1, amended. With no `'tasks'` entry the load throws nothing and gives the
empty list. With a stored JSON text it throws nothing and gives the parsed
value, or the empty list when that value is falsy. With a stored text that is
no JSON text `JSON.parse` throws a `SyntaxError`. -/
theorem loadTasks_spec :
    loadTasks none = .ok (.arr []) ∧
    ∀ text : JSString,
      (ValidJSON text →
        ∃ v, JSON_parse text = .ok v ∧
          loadTasks (some text) = .ok (if truthy v then v else .arr [])) ∧
      (¬ ValidJSON text → loadTasks (some text) = .error .SyntaxError) := by
  refine ⟨rfl, fun text => ⟨?_, ?_⟩⟩
  · intro hvalid
    obtain ⟨v, hv⟩ := (validJSON_iff text).mp hvalid
    exact ⟨v, hv, by simp only [loadTasks, toStringOrNull, hv]⟩
  · intro hbad
    simp only [loadTasks, toStringOrNull, JSON_parse_of_not_valid text hbad]

theorem loadTasks_spec_witness :
    (∃ v, JSON_parse (ascii "[]") = .ok v ∧
        loadTasks (some (ascii "[]")) = .ok (if truthy v then v else .arr [])) ∧
      loadTasks (some (ascii "[1,")) = .error .SyntaxError :=
  ⟨(loadTasks_spec.2 (ascii "[]")).1 ⟨1, .arr [], [], rfl, rfl⟩,
    (loadTasks_spec.2 (ascii "[1,")).2 (fun hvalid => by
      obtain ⟨v, hv⟩ := (validJSON_iff _).mp hvalid
      have herr : JSON_parse (ascii "[1,") = .error .SyntaxError := rfl
      rw [herr] at hv
      cases hv)⟩

end TodoApp
